import Mathlib

/-!
Verification development for the FindEverything content-search tool
(src/domain/search.rs, src/domain/file_walker.rs,
src/infrastructure/monitoring.rs, src/main.rs).

Rust strings are modelled as lists of characters, byte strings as lists of
naturals below 256.  The grep-regex matchers the program builds all lie in
the literal fragment of regex syntax (concatenations of plain characters,
escaped meta characters and two-digit hexadecimal escapes), so a compiled
matcher is modelled by the byte sequence it searches for, and a small
parser maps the generated pattern strings to that byte sequence the way
the regex engine does.  grep-regex compiles patterns with Unicode mode
enabled (its default), under which a hexadecimal escape such as \xff
denotes the Unicode codepoint U+00FF and the byte-oriented matcher
matches its UTF-8 encoding; matching the raw byte would require
disabling Unicode mode with (?-u), which the program does not do.
-/

namespace FindEverything

/-- Value of a hexadecimal digit character (0-9, a-f, A-F), as accepted by
the hex crate's decoder and produced by regex hexadecimal escapes. -/
def hexVal (c : Char) : Option Nat :=
  if 48 ≤ c.toNat ∧ c.toNat ≤ 57 then some (c.toNat - 48)
  else if 97 ≤ c.toNat ∧ c.toNat ≤ 102 then some (c.toNat - 97 + 10)
  else if 65 ≤ c.toNat ∧ c.toNat ≤ 70 then some (c.toNat - 65 + 10)
  else none

/-- The character set regex-syntax treats as meta characters
(backslash, period, plus, star, question mark, parentheses, pipe,
square brackets, curly brackets, caret, dollar, hash, ampersand,
hyphen, tilde); regex::escape inserts a backslash in front of exactly
these. -/
def isMeta (c : Char) : Bool :=
  [92, 46, 43, 42, 63, 40, 41, 124, 91, 93, 123, 125, 94, 36, 35, 38, 45, 126].contains c.toNat

/-- regex::escape, as called by SearchPattern::get_matcher for text
patterns: each meta character is preceded by a backslash, every other
character is passed through. -/
def escape (s : List Char) : List Char :=
  s.flatMap (fun c => if isMeta c then ['\\', c] else [c])

/-- Parser for the literal fragment of regex syntax that the program's
generated patterns lie in: a concatenation of plain characters, escaped
meta characters and two-digit hexadecimal escapes, each denoting one
codepoint.  Anything else (an unescaped meta character, a dangling or
unsupported escape) is rejected. -/
def parseLit : List Char → Option (List Nat)
  | [] => some []
  | c :: rest =>
    if c = '\\' then
      match rest with
      | [] => none
      | d :: rest2 =>
        if d = 'x' then
          match rest2 with
          | h1 :: h2 :: rest3 =>
            match hexVal h1 with
            | some v =>
              match hexVal h2 with
              | some w => (parseLit rest3).map (fun cs => (16 * v + w) :: cs)
              | none => none
            | none => none
          | _ => none
        else if isMeta d then (parseLit rest2).map (fun cs => d.toNat :: cs)
        else none
    else if isMeta c then none
    else (parseLit rest).map (fun cs => c.toNat :: cs)

/-- UTF-8 encoding of a Unicode codepoint, as the Unicode-mode regex
compiler encodes a literal codepoint for byte-oriented matching. -/
def utf8Encode (c : Nat) : List Nat :=
  if c < 128 then [c]
  else if c < 2048 then [192 + c / 64, 128 + c % 64]
  else if c < 65536 then [224 + c / 4096, 128 + c / 64 % 64, 128 + c % 64]
  else [240 + c / 262144, 128 + c / 4096 % 64, 128 + c / 64 % 64, 128 + c % 64]

/-- UTF-8 byte sequence of a string (how Rust stores a String, and what
line.as_bytes() yields in search_in_file). -/
def strBytes (s : List Char) : List Nat :=
  (s.map Char.toNat).flatMap utf8Encode

/-- Lowercase hexadecimal digit for a value below 16, as produced by the
Rust format specifier 02x used in get_matcher for hex patterns. -/
def hexDigitChar (n : Nat) : Char :=
  if n < 10 then Char.ofNat (48 + n) else Char.ofNat (87 + n)

/-- SearchPattern from src/domain/search.rs. -/
inductive SearchPattern where
  | Text : List Char → SearchPattern
  | Hex : List Nat → SearchPattern
  | Regex : List Char → SearchPattern

/-- SearchPattern::get_matcher: text patterns are escaped with
regex::escape and compiled; hex patterns are rendered as a concatenation
of two-digit hexadecimal escapes and compiled.  The compiled matcher is
modelled by the byte sequence the Unicode-mode regex engine searches
for.  The Regex arm compiles an arbitrary user regex, outside the
literal fragment modelled here, so it is left unmodelled (none). -/
def SearchPattern.get_matcher : SearchPattern → Option (List Nat)
  | .Text t => (parseLit (escape t)).map (fun cs => cs.flatMap utf8Encode)
  | .Hex bs =>
      (parseLit (bs.flatMap (fun b => ['\\', 'x', hexDigitChar (b / 16), hexDigitChar (b % 16)]))).map
        (fun cs => cs.flatMap utf8Encode)
  | .Regex _ => none

/-- Whether the pattern occurs in s starting at byte offset i. -/
def occursAtB (pat s : List Nat) (i : Nat) : Bool :=
  (s.drop i).take pat.length == pat

/-- Byte offset of the leftmost occurrence of the pattern, the position
grep's Matcher::find reports for a literal pattern. -/
def findFirstIdx (pat : List Nat) : List Nat → Option Nat
  | [] => if pat.isEmpty then some 0 else none
  | c :: rest =>
    if (c :: rest).take pat.length == pat then some 0
    else (findFirstIdx pat rest).map (fun i => i + 1)

/-- Matcher::find on a line's bytes: half-open byte range of the first
match. -/
def matcherFind (m : List Nat) (s : List Nat) : Option (Nat × Nat) :=
  (findFirstIdx m s).map (fun i => (i, i + m.length))

/-- hex::decode as called by SearchPattern::from_input: consecutive pairs
of hexadecimal digits become bytes; an odd-length input or a non-hex
character fails. -/
def hexDecode : List Char → Option (List Nat)
  | [] => some []
  | [_] => none
  | c1 :: c2 :: rest =>
    match hexVal c1 with
    | none => none
    | some v =>
      match hexVal c2 with
      | none => none
      | some w => (hexDecode rest).map (fun bs => (16 * v + w) :: bs)

/-- The hex branch of SearchPattern::from_input: spaces (the character
U+0020 only, via String::replace of a space by the empty string) are
removed and the rest is hex-decoded. -/
def fromInputHex (input : List Char) : Option (List Nat) :=
  hexDecode (input.filter (fun c => c != ' '))

/-! Lemmas about the leftmost-occurrence search. -/

theorem occursAtB_succ_cons (pat s : List Nat) (c : Nat) (k : Nat) :
    occursAtB pat (c :: s) (k + 1) = occursAtB pat s k := by
  simp [occursAtB]

theorem occursAtB_zero (pat s : List Nat) :
    occursAtB pat s 0 = (s.take pat.length == pat) := by
  simp [occursAtB]

theorem findFirstIdx_cons_pos (pat rest : List Nat) (c : Nat)
    (h : occursAtB pat (c :: rest) 0 = true) :
    findFirstIdx pat (c :: rest) = some 0 := by
  have h' : ((c :: rest).take pat.length == pat) = true := h
  simp [findFirstIdx, h']

theorem findFirstIdx_cons_neg (pat rest : List Nat) (c : Nat)
    (h : occursAtB pat (c :: rest) 0 = false) :
    findFirstIdx pat (c :: rest) = (findFirstIdx pat rest).map (fun i => i + 1) := by
  have h' : ((c :: rest).take pat.length == pat) = false := h
  simp [findFirstIdx, h']

theorem findFirstIdx_eq_some_iff (pat : List Nat) :
    ∀ (s : List Nat) (i : Nat),
      findFirstIdx pat s = some i ↔
        (occursAtB pat s i = true ∧ ∀ k, k < i → occursAtB pat s k = false) := by
  intro s
  induction s with
  | nil =>
    intro i
    cases pat with
    | nil =>
      constructor
      · intro h
        have hi : i = 0 := by simpa [findFirstIdx] using h.symm
        subst hi
        exact ⟨by simp [occursAtB], fun k hk => absurd hk (Nat.not_lt_zero k)⟩
      · rintro ⟨-, hall⟩
        rcases Nat.eq_zero_or_pos i with hi | hi
        · simp [findFirstIdx, hi]
        · exact absurd (hall 0 hi) (by simp [occursAtB])
    | cons p ps =>
      simp [findFirstIdx, occursAtB]
  | cons c rest ih =>
    intro i
    by_cases h : occursAtB pat (c :: rest) 0 = true
    · rw [findFirstIdx_cons_pos pat rest c h]
      constructor
      · intro he
        have hi : i = 0 := by simpa using he.symm
        subst hi
        exact ⟨h, fun k hk => absurd hk (Nat.not_lt_zero k)⟩
      · rintro ⟨hocc, hall⟩
        rcases Nat.eq_zero_or_pos i with hi | hi
        · rw [hi]
        · exact absurd h (by simp [hall 0 hi])
    · have hfalse : occursAtB pat (c :: rest) 0 = false := by
        simpa using h
      rw [findFirstIdx_cons_neg pat rest c hfalse]
      constructor
      · intro hmap
        rcases Option.map_eq_some'.mp hmap with ⟨j, hj, hji⟩
        subst hji
        obtain ⟨hocc, hall⟩ := (ih j).mp hj
        refine ⟨by rw [occursAtB_succ_cons]; exact hocc, ?_⟩
        intro k hk
        cases k with
        | zero => exact hfalse
        | succ k' =>
          rw [occursAtB_succ_cons]
          exact hall k' (by omega)
      · rintro ⟨hocc, hall⟩
        cases i with
        | zero => exact absurd hocc (by simp [hfalse])
        | succ j =>
          apply Option.map_eq_some'.mpr
          refine ⟨j, (ih j).mpr ⟨?_, ?_⟩, rfl⟩
          · rw [occursAtB_succ_cons] at hocc
            exact hocc
          · intro k hk
            have hk1 := hall (k + 1) (by omega)
            rw [occursAtB_succ_cons] at hk1
            exact hk1

theorem findFirstIdx_eq_none_iff (pat : List Nat) :
    ∀ s : List Nat, findFirstIdx pat s = none ↔ ∀ i, occursAtB pat s i = false := by
  intro s
  induction s with
  | nil =>
    cases pat with
    | nil => simp [findFirstIdx, occursAtB]
    | cons p ps => simp [findFirstIdx, occursAtB]
  | cons c rest ih =>
    by_cases h : occursAtB pat (c :: rest) 0 = true
    · rw [findFirstIdx_cons_pos pat rest c h]
      constructor
      · intro hne
        exact absurd hne (by simp)
      · intro hall
        exact absurd h (by simp [hall 0])
    · have hfalse : occursAtB pat (c :: rest) 0 = false := by
        simpa using h
      rw [findFirstIdx_cons_neg pat rest c hfalse]
      rw [Option.map_eq_none', ih]
      constructor
      · intro hall i
        cases i with
        | zero => exact hfalse
        | succ k =>
          rw [occursAtB_succ_cons]
          exact hall k
      · intro hall k
        have hk1 := hall (k + 1)
        rw [occursAtB_succ_cons] at hk1
        exact hk1

theorem matcherFind_eq_some_iff (m s : List Nat) (i j : Nat) :
    matcherFind m s = some (i, j) ↔
      (j = i + m.length ∧ occursAtB m s i = true ∧
        ∀ k, k < i → occursAtB m s k = false) := by
  simp only [matcherFind, Option.map_eq_some', Prod.mk.injEq]
  constructor
  · rintro ⟨a, ha, rfl, rfl⟩
    have h12 := (findFirstIdx_eq_some_iff m s a).mp ha
    exact ⟨rfl, h12.1, h12.2⟩
  · intro ⟨hj, h1, h2⟩
    exact ⟨i, (findFirstIdx_eq_some_iff m s i).mpr ⟨h1, h2⟩, rfl, hj.symm⟩

theorem matcherFind_eq_none_iff (m s : List Nat) :
    matcherFind m s = none ↔ ∀ i, occursAtB m s i = false := by
  simp only [matcherFind, Option.map_eq_none']
  exact findFirstIdx_eq_none_iff m s

/-! Lemmas about pattern compilation. -/

theorem parseLit_escape : ∀ s : List Char, parseLit (escape s) = some (s.map Char.toNat) := by
  intro s
  induction s with
  | nil => simp [escape, parseLit]
  | cons c t ih =>
    by_cases h : isMeta c = true
    · have hc : escape (c :: t) = '\\' :: c :: escape t := by
        simp [escape, h]
      rw [hc]
      have hx : ¬ (c = 'x') := by
        intro he
        rw [he] at h
        exact absurd h (by decide)
      rw [parseLit.eq_def]
      simp [hx, h, ih]
    · have hf : isMeta c = false := by simpa using h
      have hc : escape (c :: t) = c :: escape t := by
        simp [escape, hf]
      rw [hc]
      have hbs : ¬ (c = '\\') := by
        intro he
        rw [he] at hf
        exact absurd hf (by decide)
      rw [parseLit.eq_def]
      simp [hbs, hf, ih]

theorem hexVal_hexDigitChar (n : Nat) (h : n < 16) : hexVal (hexDigitChar n) = some n := by
  interval_cases n <;> decide

theorem parseLit_hexChars : ∀ bs : List Nat, (∀ b ∈ bs, b < 256) →
    parseLit (bs.flatMap (fun b => ['\\', 'x', hexDigitChar (b / 16), hexDigitChar (b % 16)])) =
      some bs := by
  intro bs
  induction bs with
  | nil => simp [parseLit]
  | cons b t ih =>
    intro hb
    have hb0 : b < 256 := hb b (by simp)
    have ht : ∀ x ∈ t, x < 256 := fun x hx => hb x (by simp [hx])
    have h1 : hexVal (hexDigitChar (b / 16)) = some (b / 16) :=
      hexVal_hexDigitChar _ (by omega)
    have h2 : hexVal (hexDigitChar (b % 16)) = some (b % 16) :=
      hexVal_hexDigitChar _ (by omega)
    rw [List.flatMap_cons]
    show parseLit ('\\' :: 'x' :: hexDigitChar (b / 16) :: hexDigitChar (b % 16) :: _) = _
    rw [parseLit.eq_def]
    simp [h1, h2, ih ht]
    omega

theorem utf8Encode_ascii (b : Nat) (h : b < 128) : utf8Encode b = [b] := by
  simp [utf8Encode, h]

theorem flatMap_utf8Encode_ascii : ∀ bs : List Nat, (∀ b ∈ bs, b < 128) →
    bs.flatMap utf8Encode = bs := by
  intro bs
  induction bs with
  | nil => simp
  | cons b t ih =>
    intro h
    rw [List.flatMap_cons, utf8Encode_ascii b (h b (by simp)),
      ih (fun x hx => h x (by simp [hx]))]
    rfl

theorem get_matcher_text_eq (P : List Char) :
    (SearchPattern.Text P).get_matcher = some (strBytes P) := by
  simp [SearchPattern.get_matcher, parseLit_escape, strBytes]

theorem get_matcher_hex_ascii (bs : List Nat) (hb : ∀ b ∈ bs, b < 128) :
    (SearchPattern.Hex bs).get_matcher = some bs := by
  have h2 : ∀ b ∈ bs, b < 256 := fun b h => by
    have := hb b h
    omega
  simp [SearchPattern.get_matcher, parseLit_hexChars bs h2, flatMap_utf8Encode_ascii bs hb]

/-- C2: for every text-mode pattern P, the compiled matcher matches exactly
the literal substring occurrences of P: the pattern is escaped before regex
construction, so the compiled matcher is the UTF-8 byte sequence of P
itself, its find reports the leftmost literal occurrence of that sequence,
and it reports no match exactly when no literal occurrence exists (so for
example the pattern a.b matches only the literal string a.b, never axb). -/
theorem text_matcher_matches_literally (P : List Char) :
    (SearchPattern.Text P).get_matcher = some (strBytes P) ∧
    (∀ s i j, matcherFind (strBytes P) s = some (i, j) ↔
      (j = i + (strBytes P).length ∧ occursAtB (strBytes P) s i = true ∧
        ∀ k, k < i → occursAtB (strBytes P) s k = false)) ∧
    (∀ s, matcherFind (strBytes P) s = none ↔ ∀ i, occursAtB (strBytes P) s i = false) :=
  ⟨get_matcher_text_eq P, fun s i j => matcherFind_eq_some_iff _ s i j,
    fun s => matcherFind_eq_none_iff _ s⟩

/-- C2 witness at the pattern a.b: the compiled matcher is the literal byte
sequence 97, 46, 98 and its find characterization holds. -/
theorem text_matcher_matches_literally_witness :
    (SearchPattern.Text ['a', '.', 'b']).get_matcher = some (strBytes ['a', '.', 'b']) ∧
    (∀ s i j, matcherFind (strBytes ['a', '.', 'b']) s = some (i, j) ↔
      (j = i + (strBytes ['a', '.', 'b']).length ∧
        occursAtB (strBytes ['a', '.', 'b']) s i = true ∧
        ∀ k, k < i → occursAtB (strBytes ['a', '.', 'b']) s k = false)) ∧
    (∀ s, matcherFind (strBytes ['a', '.', 'b']) s = none ↔
      ∀ i, occursAtB (strBytes ['a', '.', 'b']) s i = false) :=
  text_matcher_matches_literally ['a', '.', 'b']

/-- C3 counterexample: the hex input 83 decodes to the single byte 0x83,
which occurs byte-for-byte at offset 1 of the line bytes 0xC3 0x83 (the
UTF-8 encoding of the line holding the single character U+00C3), yet the
compiled matcher is the UTF-8 encoding 0xC2 0x83 of the codepoint U+0083
and finds no match there — the claim that every decoded byte, including
bytes above 0x7F, is matched as that literal byte is false. -/
theorem hex_matcher_high_byte_cx :
    fromInputHex ['8', '3'] = some [131] ∧
    (SearchPattern.Hex [131]).get_matcher = some [194, 131] ∧
    strBytes [Char.ofNat 195] = [195, 131] ∧
    occursAtB [131] [195, 131] 1 = true ∧
    matcherFind [194, 131] [195, 131] = none := by decide

/-- C3 as amended: when every decoded byte is below 0x80 (ASCII), the
compiled hex matcher is exactly that byte sequence and matches exactly its
byte-for-byte occurrences; bytes 0x80 and above are instead compiled as
Unicode codepoints and matched as their UTF-8 encodings. -/
theorem hex_matcher_matches_bytes_ascii (bs : List Nat) (hb : ∀ b ∈ bs, b < 128) :
    (SearchPattern.Hex bs).get_matcher = some bs ∧
    (∀ s i j, matcherFind bs s = some (i, j) ↔
      (j = i + bs.length ∧ occursAtB bs s i = true ∧
        ∀ k, k < i → occursAtB bs s k = false)) ∧
    (∀ s, matcherFind bs s = none ↔ ∀ i, occursAtB bs s i = false) :=
  ⟨get_matcher_hex_ascii bs hb, fun s i j => matcherFind_eq_some_iff _ s i j,
    fun s => matcherFind_eq_none_iff _ s⟩

/-- C3 witness at the byte sequence 0x48 0x65. -/
theorem hex_matcher_matches_bytes_ascii_witness :
    (∀ b ∈ ([72, 101] : List Nat), b < 128) ∧
    ((SearchPattern.Hex [72, 101]).get_matcher = some [72, 101] ∧
      (∀ s i j, matcherFind [72, 101] s = some (i, j) ↔
        (j = i + ([72, 101] : List Nat).length ∧ occursAtB [72, 101] s i = true ∧
          ∀ k, k < i → occursAtB [72, 101] s k = false)) ∧
      (∀ s, matcherFind [72, 101] s = none ↔ ∀ i, occursAtB [72, 101] s i = false)) :=
  ⟨by decide, hex_matcher_matches_bytes_ascii [72, 101] (by decide)⟩

/-! Lemmas about hex decoding (SearchPattern::from_input, hex branch). -/

theorem hexDecode_eq_none_iff : ∀ l : List Char,
    hexDecode l = none ↔ (l.length % 2 = 1 ∨ ∃ c ∈ l, hexVal c = none)
  | [] => by simp [hexDecode]
  | [c] => by simp [hexDecode]
  | c1 :: c2 :: rest => by
    have ih := hexDecode_eq_none_iff rest
    cases h1 : hexVal c1 with
    | none =>
      rw [hexDecode.eq_def]
      simp only [h1]
      constructor
      · intro _
        exact Or.inr ⟨c1, by simp, h1⟩
      · intro _
        trivial
    | some v =>
      cases h2 : hexVal c2 with
      | none =>
        rw [hexDecode.eq_def]
        simp only [h1, h2]
        constructor
        · intro _
          exact Or.inr ⟨c2, by simp, h2⟩
        · intro _
          trivial
      | some w =>
        rw [hexDecode.eq_def]
        simp only [h1, h2, Option.map_eq_none', ih]
        constructor
        · rintro (hlen | ⟨c, hc, hcv⟩)
          · left
            simp only [List.length_cons]
            omega
          · exact Or.inr ⟨c, by simp [hc], hcv⟩
        · rintro (hlen | ⟨c, hc, hcv⟩)
          · left
            simp only [List.length_cons] at hlen
            omega
          · rcases (by simpa using hc : c = c1 ∨ c = c2 ∨ c ∈ rest) with rfl | rfl | hm
            · rw [h1] at hcv
              exact absurd hcv (by simp)
            · rw [h2] at hcv
              exact absurd hcv (by simp)
            · exact Or.inr ⟨c, hm, hcv⟩

theorem hexDecode_eq_some_spec : ∀ (l : List Char) (bs : List Nat), hexDecode l = some bs →
    (bs.length * 2 = l.length ∧
      ∀ k, k < bs.length → ∃ c1 c2 v w,
        l.get? (2 * k) = some c1 ∧ l.get? (2 * k + 1) = some c2 ∧
        hexVal c1 = some v ∧ hexVal c2 = some w ∧ bs.get? k = some (16 * v + w))
  | [], bs, h => by
    have hb : bs = [] := by simpa [hexDecode] using h.symm
    subst hb
    exact ⟨rfl, fun k hk => absurd hk (by simp)⟩
  | [c], bs, h => by simp [hexDecode] at h
  | c1 :: c2 :: rest, bs, h => by
    rw [hexDecode.eq_def] at h
    cases h1 : hexVal c1 with
    | none =>
      simp only [h1] at h
      exact absurd h (by simp)
    | some v =>
      simp only [h1] at h
      cases h2 : hexVal c2 with
      | none =>
        simp only [h2] at h
        exact absurd h (by simp)
      | some w =>
        simp only [h2] at h
        rcases Option.map_eq_some'.mp h with ⟨bs', hrest, rfl⟩
        have ih := hexDecode_eq_some_spec rest bs' hrest
        refine ⟨?_, ?_⟩
        · simp only [List.length_cons]
          omega
        · intro k hk
          cases k with
          | zero =>
            exact ⟨c1, c2, v, w, by simp, by simp, h1, h2, by simp⟩
          | succ k' =>
            obtain ⟨d1, d2, v', w', hg1, hg2, hv1, hv2, hbk⟩ :=
              ih.2 k' (by simpa using hk)
            refine ⟨d1, d2, v', w', ?_, ?_, hv1, hv2, ?_⟩
            · have he : 2 * (k' + 1) = 2 * k' + 1 + 1 := by omega
              rw [he, List.get?_cons_succ, List.get?_cons_succ]
              exact hg1
            · have he : 2 * (k' + 1) + 1 = (2 * k' + 1) + 1 + 1 := by omega
              rw [he, List.get?_cons_succ, List.get?_cons_succ]
              exact hg2
            · rw [List.get?_cons_succ]
              exact hbk

/-- C4 counterexample: the hex-mode input consisting of the digits 4 and 8
followed by a tab fails (InvalidHex) under the code, although its
whitespace-stripped form has even length, contains only hex digits and
decodes to the byte 0x48 — so construction does not strip the whitespace
from the input and its failure condition is not the one stated over the
whitespace-stripped string; only the space character U+0020 is removed. -/
theorem from_input_hex_whitespace_cx :
    fromInputHex ['4', '8', '\t'] = none ∧
    List.filter (fun c => !c.isWhitespace) ['4', '8', '\t'] = ['4', '8'] ∧
    (['4', '8'] : List Char).length % 2 = 0 ∧
    (∀ c ∈ (['4', '8'] : List Char), (hexVal c).isSome = true) ∧
    hexDecode ['4', '8'] = some [72] := by decide

/-- C4 as amended: construction removes the space characters (U+0020) from
the input — not all whitespace — decodes the remaining characters as hex
pairs into the stored byte sequence, and fails with InvalidHex exactly when
the space-stripped string has odd length or contains a character that is
not a hex digit (any other whitespace, such as a tab, counts as a non-hex
character). -/
theorem from_input_hex_strips_spaces (s : List Char) :
    (fromInputHex s = none ↔
      ((s.filter (fun c => c != ' ')).length % 2 = 1 ∨
        ∃ c ∈ s.filter (fun c => c != ' '), hexVal c = none)) ∧
    ∀ bs, fromInputHex s = some bs →
      (bs.length * 2 = (s.filter (fun c => c != ' ')).length ∧
        ∀ k, k < bs.length → ∃ c1 c2 v w,
          (s.filter (fun c => c != ' ')).get? (2 * k) = some c1 ∧
          (s.filter (fun c => c != ' ')).get? (2 * k + 1) = some c2 ∧
          hexVal c1 = some v ∧ hexVal c2 = some w ∧ bs.get? k = some (16 * v + w)) :=
  ⟨hexDecode_eq_none_iff _, fun bs h => hexDecode_eq_some_spec _ bs h⟩

/-- C4 witness: on the input 4, space, 8 the space is removed and the pair
48 decodes to the byte 0x48. -/
theorem from_input_hex_strips_spaces_witness :
    ([72] : List Nat).length * 2 = ((['4', ' ', '8'] : List Char).filter (fun c => c != ' ')).length ∧
    ∀ k, k < ([72] : List Nat).length → ∃ c1 c2 v w,
      ((['4', ' ', '8'] : List Char).filter (fun c => c != ' ')).get? (2 * k) = some c1 ∧
      ((['4', ' ', '8'] : List Char).filter (fun c => c != ' ')).get? (2 * k + 1) = some c2 ∧
      hexVal c1 = some v ∧ hexVal c2 = some w ∧ ([72] : List Nat).get? k = some (16 * v + w) :=
  (from_input_hex_strips_spaces ['4', ' ', '8']).2 [72] (by decide)

/-! The search engine (src/domain/search.rs): SearchResult,
get_context_lines and search_in_file. -/

/-- SearchResult from src/domain/search.rs.  The matched text is kept at
the byte level: the slice of the line's bytes between the match's start
and end offsets (which from_utf8_lossy re-decodes for display). -/
structure SearchResult where
  path : List Char
  line_number : Nat
  line : List Char
  matched_text : List Nat
  context_before : List (List Char)
  context_after : List (List Char)
deriving DecidableEq

/-- get_context_lines from src/domain/search.rs: the slice of lines
before the matched line (clamped at the file start) or after it (clamped
at the file end). -/
def get_context_lines (lines : List (List Char)) (line_idx context_lines : Nat)
    (before : Bool) : List (List Char) :=
  if before then
    let start := if context_lines ≤ line_idx then line_idx - context_lines else 0
    (lines.drop start).take (line_idx - start)
  else
    let e := min (line_idx + 1 + context_lines) lines.length
    (lines.drop (line_idx + 1)).take (e - (line_idx + 1))

/-- The enumerated line loop of search_in_file: idx is the 0-based index
of the head of the remaining lines within the whole file. -/
def searchAux (path : List Char) (m : List Nat) (context_lines : Nat)
    (allLines : List (List Char)) : Nat → List (List Char) → List SearchResult
  | _, [] => []
  | idx, line :: rest =>
    match matcherFind m (strBytes line) with
    | some (st, en) =>
      { path := path
        line_number := idx + 1
        line := line
        matched_text := ((strBytes line).drop st).take (en - st)
        context_before := get_context_lines allLines idx context_lines true
        context_after := get_context_lines allLines idx context_lines false } ::
        searchAux path m context_lines allLines (idx + 1) rest
    | none => searchAux path m context_lines allLines (idx + 1) rest

/-- search_in_file from src/domain/search.rs, applied to the list of
lines the file's content splits into: for every line on which the
matcher finds a match, one SearchResult is produced. -/
def search_in_file (path : List Char) (m : List Nat) (context_lines : Nat)
    (lines : List (List Char)) : List SearchResult :=
  searchAux path m context_lines lines 0 lines

theorem mem_searchAux (path : List Char) (m : List Nat) (C : Nat)
    (allLines : List (List Char)) :
    ∀ (rem : List (List Char)) (idx : Nat) (r : SearchResult),
      r ∈ searchAux path m C allLines idx rem ↔
        ∃ j line st en, rem.get? j = some line ∧
          matcherFind m (strBytes line) = some (st, en) ∧
          r = { path := path, line_number := idx + j + 1, line := line,
                matched_text := ((strBytes line).drop st).take (en - st),
                context_before := get_context_lines allLines (idx + j) C true,
                context_after := get_context_lines allLines (idx + j) C false } := by
  intro rem
  induction rem with
  | nil =>
    intro idx r
    simp [searchAux]
  | cons line rest ih =>
    intro idx r
    cases hm : matcherFind m (strBytes line) with
    | none =>
      simp only [searchAux, hm]
      constructor
      · intro hr
        obtain ⟨j, l', st, en, hg, hf, hr⟩ := (ih (idx + 1) r).mp hr
        refine ⟨j + 1, l', st, en, by simpa using hg, hf, ?_⟩
        have heq : idx + 1 + j = idx + (j + 1) := by omega
        rw [heq] at hr
        exact hr
      · rintro ⟨j, l', st, en, hg, hf, hr⟩
        cases j with
        | zero =>
          have hl : line = l' := by simpa using hg
          subst hl
          rw [hm] at hf
          exact absurd hf (by simp)
        | succ j' =>
          apply (ih (idx + 1) r).mpr
          refine ⟨j', l', st, en, by simpa using hg, hf, ?_⟩
          have heq : idx + 1 + j' = idx + (j' + 1) := by omega
          rw [heq]
          exact hr
    | some p =>
      obtain ⟨st0, en0⟩ := p
      simp only [searchAux, hm]
      constructor
      · intro hr
        rcases List.mem_cons.mp hr with hr | hr
        · refine ⟨0, line, st0, en0, by simp, hm, ?_⟩
          simpa using hr
        · obtain ⟨j, l', st, en, hg, hf, hr⟩ := (ih (idx + 1) r).mp hr
          refine ⟨j + 1, l', st, en, by simpa using hg, hf, ?_⟩
          have heq : idx + 1 + j = idx + (j + 1) := by omega
          rw [heq] at hr
          exact hr
      · rintro ⟨j, l', st, en, hg, hf, hr⟩
        cases j with
        | zero =>
          have hl : line = l' := by simpa using hg
          subst hl
          rw [hm] at hf
          have hpair : st0 = st ∧ en0 = en := by simpa using hf
          obtain ⟨rfl, rfl⟩ := hpair
          apply List.mem_cons.mpr
          left
          simpa using hr
        | succ j' =>
          apply List.mem_cons.mpr
          right
          apply (ih (idx + 1) r).mpr
          refine ⟨j', l', st, en, by simpa using hg, hf, ?_⟩
          have heq : idx + 1 + j' = idx + (j' + 1) := by omega
          rw [heq]
          exact hr

theorem searchAux_line_number_lb (path : List Char) (m : List Nat) (C : Nat)
    (allLines : List (List Char)) (rem : List (List Char)) (idx : Nat)
    (r : SearchResult) (hr : r ∈ searchAux path m C allLines idx rem) :
    idx < r.line_number := by
  obtain ⟨j, l', st, en, _, _, hre⟩ :=
    (mem_searchAux path m C allLines rem idx r).mp hr
  rw [hre]
  show idx < idx + j + 1
  omega

theorem searchAux_pairwise (path : List Char) (m : List Nat) (C : Nat)
    (allLines : List (List Char)) :
    ∀ (rem : List (List Char)) (idx : Nat),
      List.Pairwise (fun a b => a.line_number < b.line_number)
        (searchAux path m C allLines idx rem) := by
  intro rem
  induction rem with
  | nil =>
    intro idx
    simp [searchAux]
  | cons line rest ih =>
    intro idx
    cases hm : matcherFind m (strBytes line) with
    | none =>
      simp only [searchAux, hm]
      exact ih (idx + 1)
    | some p =>
      obtain ⟨st0, en0⟩ := p
      simp only [searchAux, hm]
      refine List.Pairwise.cons ?_ (ih (idx + 1))
      intro b hb
      have := searchAux_line_number_lb path m C allLines rest (idx + 1) b hb
      simpa using by omega

/-- C6: search_in_file produces exactly one result per line on which the
matcher finds a match, in strictly ascending 1-based line-number order,
and each result's matched text is the leftmost match on its line (later
occurrences on the same line are not separately reported). -/
theorem search_in_file_per_line (path : List Char) (m : List Nat) (C : Nat)
    (lines : List (List Char)) :
    List.Pairwise (fun a b => a.line_number < b.line_number)
      (search_in_file path m C lines) ∧
    (∀ i line, lines.get? i = some line →
      ((∃ r ∈ search_in_file path m C lines, r.line_number = i + 1) ↔
        (matcherFind m (strBytes line)).isSome = true)) ∧
    (∀ r ∈ search_in_file path m C lines, ∃ i line st,
      lines.get? i = some line ∧ r.line_number = i + 1 ∧ r.path = path ∧ r.line = line ∧
      matcherFind m (strBytes line) = some (st, st + m.length) ∧
      r.matched_text = ((strBytes line).drop st).take m.length ∧
      occursAtB m (strBytes line) st = true ∧
      ∀ k, k < st → occursAtB m (strBytes line) k = false) := by
  refine ⟨searchAux_pairwise path m C lines lines 0, ?_, ?_⟩
  · intro i line hline
    constructor
    · rintro ⟨r, hr, hnum⟩
      obtain ⟨j, l', st, en, hg, hf, hre⟩ :=
        (mem_searchAux path m C lines lines 0 r).mp hr
      have hj : j = i := by
        rw [hre] at hnum
        simpa using hnum
      subst hj
      rw [hline] at hg
      have hl : l' = line := by simpa using hg.symm
      subst hl
      rw [hf]
      rfl
    · intro hsome
      obtain ⟨p, hp⟩ := Option.isSome_iff_exists.mp hsome
      obtain ⟨st, en⟩ := p
      refine ⟨{ path := path, line_number := 0 + i + 1, line := line,
                matched_text := ((strBytes line).drop st).take (en - st),
                context_before := get_context_lines lines (0 + i) C true,
                context_after := get_context_lines lines (0 + i) C false }, ?_, by simp⟩
      exact (mem_searchAux path m C lines lines 0 _).mpr
        ⟨i, line, st, en, hline, hp, rfl⟩
  · intro r hr
    obtain ⟨j, l', st, en, hg, hf, hre⟩ :=
      (mem_searchAux path m C lines lines 0 r).mp hr
    obtain ⟨hen, hocc, hleft⟩ := (matcherFind_eq_some_iff m (strBytes l') st en).mp hf
    subst hen
    refine ⟨j, l', st, hg, ?_, ?_, ?_, hf, ?_, hocc, hleft⟩
    · rw [hre]
      show 0 + j + 1 = j + 1
      omega
    · rw [hre]
    · rw [hre]
    · rw [hre]
      show ((strBytes l').drop st).take (st + m.length - st) =
        ((strBytes l').drop st).take m.length
      have harith : st + m.length - st = m.length := by omega
      rw [harith]

/-- C5: for a match on 1-based line L of a file with T lines and context
count C, the before-context is exactly the min(C, L-1) lines ending at
line L-1 (clamped at the file start) and the after-context is exactly the
min(C, T-L) lines starting at line L+1 (clamped at the file end). -/
theorem get_context_lines_spec (lines : List (List Char)) (L C : Nat)
    (h1 : 1 ≤ L) (h2 : L ≤ lines.length) :
    get_context_lines lines (L - 1) C true =
      (lines.drop (L - 1 - min C (L - 1))).take (min C (L - 1)) ∧
    (get_context_lines lines (L - 1) C true).length = min C (L - 1) ∧
    get_context_lines lines (L - 1) C false =
      (lines.drop L).take (min C (lines.length - L)) ∧
    (get_context_lines lines (L - 1) C false).length = min C (lines.length - L) := by
  have hbefore : get_context_lines lines (L - 1) C true =
      (lines.drop (L - 1 - min C (L - 1))).take (min C (L - 1)) := by
    by_cases hc : C ≤ L - 1
    · simp only [get_context_lines, if_pos hc, if_true]
      have e1 : min C (L - 1) = C := by omega
      have e2 : L - 1 - (L - 1 - C) = C := by omega
      rw [e1, e2]
    · simp only [get_context_lines, if_neg hc, if_true]
      have e1 : min C (L - 1) = L - 1 := by omega
      have e2 : (L - 1 : Nat) - 0 = L - 1 := by omega
      rw [e1, e2]
      have e3 : L - 1 - (L - 1) = 0 := by omega
      rw [e3]
  have hafter : get_context_lines lines (L - 1) C false =
      (lines.drop L).take (min C (lines.length - L)) := by
    simp only [get_context_lines, Bool.false_eq_true, if_false]
    have e1 : L - 1 + 1 = L := by omega
    rw [e1]
    have e2 : min (L + C) lines.length - L = min C (lines.length - L) := by omega
    rw [e2]
  refine ⟨hbefore, ?_, hafter, ?_⟩
  · rw [hbefore]
    rw [List.length_take, List.length_drop]
    omega
  · rw [hafter]
    rw [List.length_take, List.length_drop]
    omega

/-- C5 witness: a file with five lines, a match on line 4 and two context
lines: the before-context is lines 2 and 3, the after-context is line 5. -/
theorem get_context_lines_spec_witness :
    (1 ≤ 4 ∧ 4 ≤ ([['a'], ['b'], ['c'], ['d'], ['e']] : List (List Char)).length) ∧
    (get_context_lines [['a'], ['b'], ['c'], ['d'], ['e']] (4 - 1) 2 true =
        (([['a'], ['b'], ['c'], ['d'], ['e']] : List (List Char)).drop (4 - 1 - min 2 (4 - 1))).take (min 2 (4 - 1)) ∧
      (get_context_lines [['a'], ['b'], ['c'], ['d'], ['e']] (4 - 1) 2 true).length = min 2 (4 - 1) ∧
      get_context_lines [['a'], ['b'], ['c'], ['d'], ['e']] (4 - 1) 2 false =
        (([['a'], ['b'], ['c'], ['d'], ['e']] : List (List Char)).drop 4).take (min 2 (([['a'], ['b'], ['c'], ['d'], ['e']] : List (List Char)).length - 4)) ∧
      (get_context_lines [['a'], ['b'], ['c'], ['d'], ['e']] (4 - 1) 2 false).length =
        min 2 (([['a'], ['b'], ['c'], ['d'], ['e']] : List (List Char)).length - 4)) :=
  ⟨⟨by decide, by decide⟩,
    get_context_lines_spec [['a'], ['b'], ['c'], ['d'], ['e']] 4 2 (by decide) (by decide)⟩

/-! The file filter (src/domain/file_walker.rs). -/

/-- Paths are modelled by their list of components plus the separator
character they are written with; rendering joins the components with that
separator.  The component-based accessors (file_name, components) model
std::path::Path on a platform where both the slash and the backslash
separate components (the platform the separator normalization in
is_path_excluded targets), for components containing no separator
characters. -/
structure RPath where
  comps : List (List Char)
  sep : Char

/-- Join components with a separator character (what to_string_lossy
yields for a path written with that separator). -/
def renderPath (sep : Char) : List (List Char) → List Char
  | [] => []
  | [c] => c
  | c :: c2 :: cs => c ++ sep :: renderPath sep (c2 :: cs)

def RPath.render (p : RPath) : List Char :=
  renderPath p.sep p.comps

/-- Path::file_name: the final component. -/
def RPath.fileName (p : RPath) : Option (List Char) :=
  p.comps.getLast?

/-- str::replace of every backslash by a slash, the separator
normalization used by FileFilter::is_path_excluded. -/
def normalizeSeps (s : List Char) : List Char :=
  s.map (fun c => if c = '\\' then '/' else c)

/-- str::ends_with for strings as character lists. -/
def endsWithStr (s suf : List Char) : Bool :=
  s.drop (s.length - suf.length) == suf

/-- FileFilter from src/domain/file_walker.rs; the hash sets are modelled
as lists (only membership is ever consulted). -/
structure FileFilter where
  min_size : Option Nat
  max_size : Option Nat
  excluded_dirs : List (List Char)
  excluded_paths : List (List Char)

/-- FileFilter::matches_size. -/
def FileFilter.matches_size (f : FileFilter) (size : Nat) : Bool :=
  (match f.min_size with
   | none => true
   | some m => decide (m ≤ size)) &&
  (match f.max_size with
   | none => true
   | some m => decide (size ≤ m))

/-- FileFilter::is_path_excluded: the normalized path equals, ends with,
or has a file name equal to a configured excluded path (the file-name
comparison uses the raw excluded string), or some path component is an
excluded directory name. -/
def FileFilter.is_path_excluded (f : FileFilter) (p : RPath) : Bool :=
  f.excluded_paths.any (fun excluded =>
    (normalizeSeps p.render == normalizeSeps excluded) ||
    (match p.fileName with
     | some name => name == excluded
     | none => false) ||
    endsWithStr (normalizeSeps p.render) (normalizeSeps excluded)) ||
  p.comps.any (fun comp => f.excluded_dirs.contains comp)

/-- DirEntry as consumed by should_process: its path and the result of
entry.metadata() (the file length when metadata is obtainable, none when
the metadata call fails). -/
structure DirEntry where
  path : RPath
  metadata : Option Nat

/-- FileFilter::should_process: reject excluded paths; apply the size
bounds only when metadata is available; accept otherwise. -/
def FileFilter.should_process (f : FileFilter) (e : DirEntry) : Bool :=
  if f.is_path_excluded e.path then false
  else
    match e.metadata with
    | some len => if ! f.matches_size len then false else true
    | none => true

/-- A widened (or equal) lower size bound: absent means unbounded below. -/
def lowerBoundWidened : Option Nat → Option Nat → Prop
  | none, _ => True
  | some x, some y => x ≤ y
  | some _, none => False

/-- A widened (or equal) upper size bound: absent means unbounded above. -/
def upperBoundWidened : Option Nat → Option Nat → Prop
  | none, _ => True
  | some x, some y => y ≤ x
  | some _, none => False

/-- C7: FileFilter acceptance is monotonic in the size bounds — widening
the bounds (lowering or dropping the minimum, raising or dropping the
maximum) never turns an accepted size into a rejected one. -/
theorem matches_size_monotone (f g : FileFilter) (s : Nat)
    (hmin : lowerBoundWidened g.min_size f.min_size)
    (hmax : upperBoundWidened g.max_size f.max_size)
    (h : f.matches_size s = true) :
    g.matches_size s = true := by
  obtain ⟨fmin, fmax, fdirs, fpaths⟩ := f
  obtain ⟨gmin, gmax, gdirs, gpaths⟩ := g
  simp only [FileFilter.matches_size, Bool.and_eq_true] at h ⊢
  obtain ⟨h1, h2⟩ := h
  constructor
  · rcases gmin with _ | x
    · rfl
    · rcases fmin with _ | y
      · exact absurd hmin (by simp [lowerBoundWidened])
      · simp only [lowerBoundWidened] at hmin
        simp only [decide_eq_true_eq] at h1 ⊢
        omega
  · rcases gmax with _ | x
    · rfl
    · rcases fmax with _ | y
      · exact absurd hmax (by simp [upperBoundWidened])
      · simp only [upperBoundWidened] at hmax
        simp only [decide_eq_true_eq] at h2 ⊢
        omega

/-- C7 witness: the size 50 accepted under bounds 10 to 100 remains
accepted when the minimum is lowered to 5 and the maximum is dropped. -/
theorem matches_size_monotone_witness :
    lowerBoundWidened (some 5) (some 10) ∧
    upperBoundWidened none (some 100) ∧
    (FileFilter.mk (some 10) (some 100) [] []).matches_size 50 = true ∧
    (FileFilter.mk (some 5) none [] []).matches_size 50 = true :=
  ⟨by simp [lowerBoundWidened], by simp [upperBoundWidened], by decide,
    matches_size_monotone (FileFilter.mk (some 10) (some 100) [] [])
      (FileFilter.mk (some 5) none [] []) 50 (by simp [lowerBoundWidened])
      (by simp [upperBoundWidened]) (by decide)⟩

/-- C10: when a file's path is not excluded and its metadata cannot be
obtained, should_process skips the size check entirely and accepts the
file — the size bounds apply only when metadata is available. -/
theorem should_process_no_metadata (f : FileFilter) (e : DirEntry)
    (hex : f.is_path_excluded e.path = false) (hmeta : e.metadata = none) :
    f.should_process e = true := by
  simp [FileFilter.should_process, hex, hmeta]

/-- C10 witness: a filter with size bounds that would reject any size
still accepts an entry without metadata. -/
theorem should_process_no_metadata_witness :
    (FileFilter.mk (some 100) (some 10) [['t']] [['x']]).is_path_excluded
      (RPath.mk [['a']] '/') = false ∧
    (FileFilter.mk (some 100) (some 10) [['t']] [['x']]).should_process
      (DirEntry.mk (RPath.mk [['a']] '/') none) = true :=
  ⟨by decide,
    should_process_no_metadata (FileFilter.mk (some 100) (some 10) [['t']] [['x']])
      (DirEntry.mk (RPath.mk [['a']] '/') none) (by decide) rfl⟩

/-! The CPU monitor (src/infrastructure/monitoring.rs). -/

/-- The CpuMonitor state involved in throttling: the configured threshold
and delay, and the shared should_throttle flag written by the sampling
loop.  Usage percentages (f32 in the source) are abstracted to an
arbitrary linearly ordered type; only their ordering is ever consulted. -/
structure CpuMonitor (α : Type) where
  cpu_threshold : α
  search_delay_ms : Nat
  should_throttle : Bool

/-- One tick of the sampling loop spawned by CpuMonitor::start: store
whether the sampled average usage exceeds the threshold into the shared
should_throttle flag. -/
def sampleStep {α : Type} [LinearOrder α] (st : CpuMonitor α) (usage : α) :
    CpuMonitor α :=
  { st with should_throttle := decide (st.cpu_threshold < usage) }

/-- CpuMonitor::apply_throttle, rendered as the number of milliseconds
the calling thread sleeps: search_delay_ms when the flag indicates
throttling, zero (an immediate return) otherwise. -/
def apply_throttle {α : Type} (st : CpuMonitor α) : Nat :=
  if st.should_throttle then st.search_delay_ms else 0

/-- C9: after a sample above the threshold, should_throttle reads true and
apply_throttle blocks the calling thread for the configured delay; after a
sample at or below the threshold, should_throttle reads false and
apply_throttle returns without blocking (a zero sleep). -/
theorem throttle_follows_sample {α : Type} [LinearOrder α]
    (threshold usage : α) (delay : Nat) (flag : Bool) :
    (threshold < usage →
      (sampleStep (CpuMonitor.mk threshold delay flag) usage).should_throttle = true ∧
      apply_throttle (sampleStep (CpuMonitor.mk threshold delay flag) usage) = delay) ∧
    (¬ threshold < usage →
      (sampleStep (CpuMonitor.mk threshold delay flag) usage).should_throttle = false ∧
      apply_throttle (sampleStep (CpuMonitor.mk threshold delay flag) usage) = 0) := by
  constructor
  · intro h
    simp [sampleStep, apply_throttle, h]
  · intro h
    simp [sampleStep, apply_throttle, h]

/-- C9 witness: threshold 80, sampled usage 90, delay 100 — the flag turns
true and the call sleeps 100; with usage 70 it would not block. -/
theorem throttle_follows_sample_witness :
    (80 : Nat) < 90 ∧
    ((sampleStep (CpuMonitor.mk (80 : Nat) 100 false) 90).should_throttle = true ∧
      apply_throttle (sampleStep (CpuMonitor.mk (80 : Nat) 100 false) 90) = 100) :=
  ⟨by decide, (throttle_follows_sample 80 90 100 false).1 (by decide)⟩

/-! Separator invariance of path exclusion (C8). -/

theorem normalizeSeps_id (c : List Char) (h : ∀ ch ∈ c, ch ≠ '\\') :
    normalizeSeps c = c := by
  induction c with
  | nil => rfl
  | cons a t ih =>
    simp only [normalizeSeps, List.map_cons]
    rw [if_neg (h a (by simp))]
    have := ih (fun x hx => h x (by simp [hx]))
    simp only [normalizeSeps] at this
    rw [this]

theorem normalizeSeps_append (a b : List Char) :
    normalizeSeps (a ++ b) = normalizeSeps a ++ normalizeSeps b :=
  List.map_append _ a b

theorem normalizeSeps_cons (c : Char) (t : List Char) :
    normalizeSeps (c :: t) = (if c = '\\' then '/' else c) :: normalizeSeps t :=
  rfl

theorem normalizeSeps_renderPath (s : Char) (hs : s = '/' ∨ s = '\\') :
    ∀ cs : List (List Char), (∀ c ∈ cs, ∀ ch ∈ c, ch ≠ '\\') →
      normalizeSeps (renderPath s cs) = renderPath '/' cs
  | [], _ => by simp [renderPath, normalizeSeps]
  | [c], h => by
    simp only [renderPath]
    exact normalizeSeps_id c (h c (by simp))
  | c :: c2 :: cs, h => by
    have ih := normalizeSeps_renderPath s hs (c2 :: cs)
      (fun x hx => h x (List.mem_cons_of_mem c hx))
    have hsep : (if s = '\\' then '/' else s) = '/' := by
      rcases hs with rfl | rfl <;> simp
    rw [renderPath, normalizeSeps_append, normalizeSeps_cons, ih,
      normalizeSeps_id c (h c (by simp)), hsep]
    rfl

theorem sep_mem_renderPath (s : Char) (c1 c2 : List Char) (cs : List (List Char)) :
    s ∈ renderPath s (c1 :: c2 :: cs) := by
  rw [renderPath]
  exact List.mem_append.mpr (Or.inr (by simp))

/-- C8: path exclusion is invariant under the path-separator choice: for a
path and an excluded-path string whose components contain no separator
characters, is_path_excluded decides identically whether each of them is
written with slash or with backslash separators. -/
theorem is_path_excluded_sep_invariant
    (pcs ecs dirs : List (List Char)) (s1 s2 : Char)
    (hp : ∀ c ∈ pcs, ∀ ch ∈ c, ch ≠ '/' ∧ ch ≠ '\\')
    (he : ∀ c ∈ ecs, ∀ ch ∈ c, ch ≠ '/' ∧ ch ≠ '\\')
    (hs1 : s1 = '/' ∨ s1 = '\\') (hs2 : s2 = '/' ∨ s2 = '\\') :
    (FileFilter.mk none none dirs [renderPath s2 ecs]).is_path_excluded
      (RPath.mk pcs s1) =
    (FileFilter.mk none none dirs [renderPath '/' ecs]).is_path_excluded
      (RPath.mk pcs '/') := by
  have hpns : ∀ c ∈ pcs, ∀ ch ∈ c, ch ≠ '\\' := fun c hc ch hch => (hp c hc ch hch).2
  have hens : ∀ c ∈ ecs, ∀ ch ∈ c, ch ≠ '\\' := fun c hc ch hch => (he c hc ch hch).2
  have hP1 : normalizeSeps (renderPath s1 pcs) = renderPath '/' pcs :=
    normalizeSeps_renderPath s1 hs1 pcs hpns
  have hP2 : normalizeSeps (renderPath '/' pcs) = renderPath '/' pcs :=
    normalizeSeps_renderPath '/' (Or.inl rfl) pcs hpns
  have hE1 : normalizeSeps (renderPath s2 ecs) = renderPath '/' ecs :=
    normalizeSeps_renderPath s2 hs2 ecs hens
  have hE2 : normalizeSeps (renderPath '/' ecs) = renderPath '/' ecs :=
    normalizeSeps_renderPath '/' (Or.inl rfl) ecs hens
  have hname : (match pcs.getLast? with
      | some name => name == renderPath s2 ecs
      | none => false) =
      (match pcs.getLast? with
      | some name => name == renderPath '/' ecs
      | none => false) := by
    cases hl : pcs.getLast? with
    | none => rfl
    | some name =>
      have hmem : name ∈ pcs := by
        obtain ⟨hne, heq⟩ :=
          List.mem_getLast?_eq_getLast (Option.mem_def.mpr hl)
        rw [heq]
        exact List.getLast_mem hne
      cases ecs with
      | nil => rfl
      | cons e1 etl =>
        cases etl with
        | nil => rfl
        | cons e2 etl2 =>
          have hnames : ∀ ch ∈ name, ch ≠ '/' ∧ ch ≠ '\\' := hp name hmem
          have hne1 : name ≠ renderPath s2 (e1 :: e2 :: etl2) := by
            intro hcontra
            have hsm : s2 ∈ name := by
              rw [hcontra]
              exact sep_mem_renderPath s2 e1 e2 etl2
            rcases hs2 with rfl | rfl
            · exact (hnames _ hsm).1 rfl
            · exact (hnames _ hsm).2 rfl
          have hne2 : name ≠ renderPath '/' (e1 :: e2 :: etl2) := by
            intro hcontra
            have hsm : '/' ∈ name := by
              rw [hcontra]
              exact sep_mem_renderPath '/' e1 e2 etl2
            exact (hnames _ hsm).1 rfl
          simp [hne1, hne2]
  simp only [FileFilter.is_path_excluded, List.any_cons, List.any_nil, Bool.or_false,
    RPath.render, RPath.fileName]
  rw [hP1, hP2, hE1, hE2, hname]

/-- C8 witness: the excluded path with components dir and file.txt and the
path with components sub, dir and file.txt, each written with backslash
separators, are decided exactly as their slash-separated spellings. -/
theorem is_path_excluded_sep_invariant_witness :
    (FileFilter.mk none none []
        [renderPath '\\' [['d', 'i', 'r'], ['f', '.', 't', 'x', 't']]]).is_path_excluded
      (RPath.mk [['s', 'u', 'b'], ['d', 'i', 'r'], ['f', '.', 't', 'x', 't']] '\\') =
    (FileFilter.mk none none []
        [renderPath '/' [['d', 'i', 'r'], ['f', '.', 't', 'x', 't']]]).is_path_excluded
      (RPath.mk [['s', 'u', 'b'], ['d', 'i', 'r'], ['f', '.', 't', 'x', 't']] '/') :=
  is_path_excluded_sep_invariant
    [['s', 'u', 'b'], ['d', 'i', 'r'], ['f', '.', 't', 'x', 't']]
    [['d', 'i', 'r'], ['f', '.', 't', 'x', 't']] [] '\\' '\\'
    (by decide) (by decide) (by decide) (by decide)

/-! The result aggregator and final summary (src/main.rs). -/

/-- SearchSummary: the final counters main reports. -/
structure SearchSummary where
  total_files : Nat
  matched_files : Nat
  total_matches : Nat

/-- The aggregator thread's mutable state: the two counters it owns plus
the set of already seen matched file paths (the HashSet, modelled as a
duplicate-free list). -/
structure AggState where
  total_matches : Nat
  matched_files : Nat
  seen_paths : List (List Char)

/-- One received result in the aggregator loop of main: the total match
count always increments, and the distinct matched-file count increments
exactly when the result's path is inserted into the seen set for the
first time. -/
def aggStep (st : AggState) (r : SearchResult) : AggState :=
  let st1 : AggState := { st with total_matches := st.total_matches + 1 }
  if st1.seen_paths.contains r.path then st1
  else { st1 with seen_paths := r.path :: st1.seen_paths,
                  matched_files := st1.matched_files + 1 }

/-- The aggregator receives until the channel closes, draining the whole
result stream from the zeroed counters and the empty seen set. -/
def aggregate (stream : List SearchResult) : AggState :=
  stream.foldl aggStep (AggState.mk 0 0 [])

/-- The walker's accepted-file counter: one fetch_add of 1 per accepted
file, in whatever order the workers encounter them. -/
def walkerTotalFiles {α : Type} (files : List α) : Nat :=
  files.foldl (fun n _ => n + 1) 0

/-- One accepted file of a run: its path and the results search_in_file
produced for it (each carrying that path). -/
structure FileRun where
  path : List Char
  results : List SearchResult

/-- The summary main reports after the walk completes and the aggregator
thread is joined: total_files from the walker's counter, the other two
counters from the drained aggregator state. -/
def finalSummary (files : List FileRun) (stream : List SearchResult) :
    SearchSummary :=
  SearchSummary.mk (walkerTotalFiles files) (aggregate stream).matched_files
    (aggregate stream).total_matches

theorem foldl_aggStep_total (stream : List SearchResult) :
    ∀ st : AggState,
      (stream.foldl aggStep st).total_matches = st.total_matches + stream.length := by
  induction stream with
  | nil =>
    intro st
    simp
  | cons r s ih =>
    intro st
    rw [List.foldl_cons, ih]
    have hstep : (aggStep st r).total_matches = st.total_matches + 1 := by
      by_cases hc : r.path ∈ st.seen_paths
      · simp [aggStep, hc]
      · simp [aggStep, hc]
    rw [hstep, List.length_cons]
    omega

theorem foldl_aggStep_seen (stream : List SearchResult) :
    ∀ st : AggState,
      ((stream.foldl aggStep st).seen_paths).toFinset =
        st.seen_paths.toFinset ∪ (stream.map SearchResult.path).toFinset := by
  induction stream with
  | nil =>
    intro st
    simp
  | cons r s ih =>
    intro st
    rw [List.foldl_cons, ih]
    have hstep : (aggStep st r).seen_paths.toFinset =
        insert r.path st.seen_paths.toFinset := by
      by_cases hc : r.path ∈ st.seen_paths
      · have hmem : r.path ∈ st.seen_paths.toFinset := List.mem_toFinset.mpr hc
        have hred : (aggStep st r).seen_paths = st.seen_paths := by
          simp [aggStep, hc]
        rw [hred]
        exact (Finset.insert_eq_self.mpr hmem).symm
      · simp [aggStep, hc, List.toFinset_cons]
    rw [hstep, List.map_cons, List.toFinset_cons]
    ext x
    simp only [Finset.mem_union, Finset.mem_insert, List.mem_toFinset]
    tauto

theorem foldl_aggStep_matched (stream : List SearchResult) :
    ∀ st : AggState, st.seen_paths.Nodup →
      st.matched_files = st.seen_paths.length →
      ((stream.foldl aggStep st).seen_paths.Nodup ∧
        (stream.foldl aggStep st).matched_files =
          (stream.foldl aggStep st).seen_paths.length) := by
  induction stream with
  | nil =>
    intro st h1 h2
    exact ⟨h1, h2⟩
  | cons r s ih =>
    intro st h1 h2
    rw [List.foldl_cons]
    by_cases hc : r.path ∈ st.seen_paths
    · apply ih
      · simpa [aggStep, hc] using h1
      · simpa [aggStep, hc] using h2
    · apply ih
      · simp [aggStep, hc, List.nodup_cons, h1]
      · simp [aggStep, hc, h2]

theorem aggregate_counts (stream : List SearchResult) :
    (aggregate stream).total_matches = stream.length ∧
    (aggregate stream).matched_files = (stream.map SearchResult.path).toFinset.card := by
  refine ⟨by simpa using foldl_aggStep_total stream (AggState.mk 0 0 []), ?_⟩
  obtain ⟨hnd, hm⟩ :=
    foldl_aggStep_matched stream (AggState.mk 0 0 []) (by simp) (by simp)
  show (stream.foldl aggStep (AggState.mk 0 0 [])).matched_files = _
  rw [hm, ← List.toFinset_card_of_nodup hnd]
  congr 1
  have hseen := foldl_aggStep_seen stream (AggState.mk 0 0 [])
  simpa using hseen

theorem flatMap_results_path_toFinset :
    ∀ files : List FileRun, (∀ f ∈ files, ∀ r ∈ f.results, r.path = f.path) →
      ((files.flatMap FileRun.results).map SearchResult.path).toFinset =
        ((files.filter (fun f => !f.results.isEmpty)).map FileRun.path).toFinset := by
  intro files
  induction files with
  | nil =>
    intro _
    simp
  | cons f fs ih =>
    intro h
    have hf : ∀ r ∈ f.results, r.path = f.path := h f (by simp)
    have hfs : ∀ g ∈ fs, ∀ r ∈ g.results, r.path = g.path :=
      fun g hg => h g (by simp [hg])
    rw [List.flatMap_cons, List.map_append, List.toFinset_append, ih hfs]
    have hres : (f.results.map SearchResult.path).toFinset =
        (if f.results.isEmpty then (∅ : Finset (List Char)) else {f.path}) := by
      cases hr : f.results with
      | nil => simp
      | cons r rs =>
        simp only [List.isEmpty_cons, Bool.false_eq_true, if_false]
        ext z
        simp only [List.mem_toFinset, List.mem_map, Finset.mem_singleton]
        constructor
        · rintro ⟨y, hy, rfl⟩
          exact hf y (by rw [hr]; exact hy)
        · intro hz
          refine ⟨r, by simp, ?_⟩
          rw [hf r (by rw [hr]; simp), hz]
    rw [hres]
    by_cases he : f.results.isEmpty = true
    · rw [if_pos he]
      rw [List.filter_cons]
      simp [he]
    · rw [if_neg he]
      rw [List.filter_cons]
      have he2 : (!f.results.isEmpty) = true := by simpa using he
      simp only [he2, if_true, List.map_cons, List.toFinset_cons]
      exact (Finset.insert_eq _ _).symm

theorem filter_nonempty_map_path_card (files : List FileRun)
    (hnd : (files.map FileRun.path).Nodup) :
    ((files.filter (fun f => !f.results.isEmpty)).map FileRun.path).toFinset.card =
      (files.filter (fun f => !f.results.isEmpty)).length := by
  have hsub : ((files.filter (fun f => !f.results.isEmpty)).map FileRun.path).Sublist
      (files.map FileRun.path) :=
    (List.filter_sublist files).map FileRun.path
  have hnd2 : ((files.filter (fun f => !f.results.isEmpty)).map FileRun.path).Nodup :=
    hnd.sublist hsub
  rw [List.toFinset_card_of_nodup hnd2, List.length_map]

/-- C1: for a run over N accepted files with pairwise distinct paths, of
which the files with a nonempty result list are the matched ones, and a
result stream that is any interleaving (permutation) of the per-file
result lists — covering every degree of parallelism — the final summary
has total_files = N, total_matches = the sum K of per-file match counts,
and matched_files = the number M of files with at least one match, each
file counted once however many of its results arrive. -/
theorem final_summary_counts (files : List FileRun) (stream : List SearchResult)
    (hpaths : ∀ f ∈ files, ∀ r ∈ f.results, r.path = f.path)
    (hnodup : (files.map FileRun.path).Nodup)
    (hperm : stream.Perm (files.flatMap FileRun.results)) :
    (finalSummary files stream).total_files = files.length ∧
    (finalSummary files stream).total_matches =
      (files.map (fun f => f.results.length)).sum ∧
    (finalSummary files stream).matched_files =
      (files.filter (fun f => !f.results.isEmpty)).length := by
  refine ⟨?_, ?_, ?_⟩
  · show walkerTotalFiles files = files.length
    have hgen : ∀ (l : List FileRun) (k : Nat),
        l.foldl (fun n _ => n + 1) k = k + l.length := by
      intro l
      induction l with
      | nil =>
        intro k
        simp
      | cons a t ih =>
        intro k
        rw [List.foldl_cons, ih, List.length_cons]
        omega
    simpa [walkerTotalFiles] using hgen files 0
  · show (aggregate stream).total_matches = _
    rw [(aggregate_counts stream).1, hperm.length_eq, List.length_flatMap]
    rfl
  · show (aggregate stream).matched_files = _
    rw [(aggregate_counts stream).2]
    have hmapperm : (stream.map SearchResult.path).Perm
        ((files.flatMap FileRun.results).map SearchResult.path) := hperm.map _
    have hfin : (stream.map SearchResult.path).toFinset =
        ((files.flatMap FileRun.results).map SearchResult.path).toFinset := by
      ext x
      simp [hmapperm.mem_iff]
    rw [hfin, flatMap_results_path_toFinset files hpaths,
      filter_nonempty_map_path_card files hnodup]

/-- A three-file run used as the C1 witness: file a with two matches,
file b with none, file c with one. -/
def c1Files : List FileRun :=
  [FileRun.mk ['a'] [SearchResult.mk ['a'] 1 [] [] [] [], SearchResult.mk ['a'] 2 [] [] [] []],
   FileRun.mk ['b'] [],
   FileRun.mk ['c'] [SearchResult.mk ['c'] 1 [] [] [] []]]

/-- The C1 witness stream: the three results arriving interleaved, file
c's result first. -/
def c1Stream : List SearchResult :=
  [SearchResult.mk ['c'] 1 [] [] [] [],
   SearchResult.mk ['a'] 1 [] [] [] [],
   SearchResult.mk ['a'] 2 [] [] [] []]

/-- C1 witness: over the three-file run with three total matches in two
distinct files, the out-of-order stream still yields total_files 3,
total_matches 3 and matched_files 2. -/
theorem final_summary_counts_witness :
    (finalSummary c1Files c1Stream).total_files = 3 ∧
    (finalSummary c1Files c1Stream).total_matches = 3 ∧
    (finalSummary c1Files c1Stream).matched_files = 2 := by
  have h := final_summary_counts c1Files c1Stream (by decide) (by decide)
    (@List.perm_append_comm SearchResult [SearchResult.mk ['c'] 1 [] [] [] []]
      [SearchResult.mk ['a'] 1 [] [] [] [], SearchResult.mk ['a'] 2 [] [] [] []])
  exact ⟨h.1.trans (by decide), h.2.1.trans (by decide), h.2.2.trans (by decide)⟩

end FindEverything
